import Mathlib

/-!
# Verification of the job-ixl graph service core

A shallow embedding of the graph-service source (`src/server.js`): the
`/build-graph` handler (full reset plus UNWIND/MERGE repopulation inside one
`writeTransaction`) and the `/graph/chains` handler (bounded simple-cycle
enumeration with average-priority aggregation and sorted-label-key
deduplication).

The Neo4j store is modelled as an explicit `Graph` value (a list of `Person`
nodes and a list of directed `CANDIDATO_A` edges).  Cypher statements are
translated clause by clause into Lean functions on that state; the
`writeTransaction` wrapper is modelled by its guarantee: on failure the
pre-transaction state is kept (rollback), on success the fully rebuilt state
replaces it.  JavaScript numbers are modelled as `ℚ`, absent/null JSON values
as `Option`.
-/

namespace GraphService

/-- A `(:Person)` node: `id` is the merge key, `full_name` a nullable
display-name property. -/
structure Person where
  id : String
  full_name : Option String
deriving Repr, DecidableEq

/-- A `[:CANDIDATO_A]` relationship from the node with id `src` to the node
with id `tgt`, carrying a nullable numeric `priority` property. -/
structure Edge where
  src : String
  tgt : String
  priority : Option ℚ
deriving Repr, DecidableEq

/-- The whole Neo4j database content relevant to the service. -/
structure Graph where
  nodes : List Person
  edges : List Edge
deriving Repr, DecidableEq

/-- The state after `MATCH (n) DETACH DELETE n`. -/
def emptyGraph : Graph := ⟨[], []⟩

/-- One element of the `applications` request array.  Each field may be
absent (JSON `undefined`/`null`), hence `Option`. -/
structure AppRec where
  user_id : Option String
  target_user_id : Option String
  priority : Option ℚ
deriving Repr, DecidableEq

/-- Cypher `coalesce(a, b)`. -/
def coalesce (a b : Option α) : Option α :=
  match a with
  | some x => some x
  | none => b

/-- Cypher map access `$usersById[pid]`: `null` when the key is absent. -/
def lookupName (usersById : List (String × String)) (pid : String) : Option String :=
  (usersById.find? (fun kv => kv.1 == pid)).map (·.2)

/-- `MERGE (a:Person {id: pid}) SET a.full_name = coalesce($usersById[pid], a.full_name)`:
if a node with this id exists its name is refreshed through `coalesce`,
otherwise the node is created (with no name) and then the same `SET` runs. -/
def upsertPerson (g : Graph) (pid : String) (usersById : List (String × String)) : Graph :=
  if g.nodes.any (fun q => q.id == pid) then
    { g with nodes := g.nodes.map (fun q =>
        if q.id == pid then { q with full_name := coalesce (lookupName usersById pid) q.full_name }
        else q) }
  else
    { g with nodes := g.nodes ++ [{ id := pid, full_name := coalesce (lookupName usersById pid) none }] }

/-- `MERGE (a)-[r:CANDIDATO_A]->(b) SET r.priority = p`: if a matching
relationship exists its priority is overwritten, otherwise the relationship is
created with that priority. -/
def upsertEdge (g : Graph) (u t : String) (p : Option ℚ) : Graph :=
  if g.edges.any (fun e => e.src == u && e.tgt == t) then
    { g with edges := g.edges.map (fun e =>
        if e.src == u && e.tgt == t then { e with priority := p } else e) }
  else
    { g with edges := g.edges ++ [{ src := u, tgt := t, priority := p }] }

/-- Processing of a single `UNWIND`-ed application record by the build query.
`MERGE (a:Person {id: app.user_id})` fails at the store when the id is `null`
("Cannot merge node using null property value"), which we model as `none`. -/
def applyApp (g : Graph) (a : AppRec) (usersById : List (String × String)) : Option Graph :=
  match a.user_id, a.target_user_id with
  | some u, some t =>
      some (upsertEdge (upsertPerson (upsertPerson g u usersById) t usersById) u t a.priority)
  | _, _ => none

/-- The whole `UNWIND $apps AS app …` build statement: the records are
processed sequentially in input order; a store error at any record fails the
whole statement. -/
def runBuildQuery (g : Graph) (apps : List AppRec) (usersById : List (String × String)) :
    Option Graph :=
  match apps with
  | [] => some g
  | a :: rest =>
      match applyApp g a usersById with
      | some g1 => runBuildQuery g1 rest usersById
      | none => none

/-- The request body of `POST /build-graph`; each field may be absent. -/
structure BuildBody where
  applications : Option (List AppRec)
  usersById : Option (List (String × String))
deriving Repr, DecidableEq

/-- Outcome of the `/build-graph` handler.  `ok` carries the two read-back
counts; `validationError` is the spec's eager HTTP-400 rejection class (no
code path of `src/server.js` produces it); `storeError` is the handler's
catch-all HTTP-500 response. -/
inductive BuildOutcome where
  | ok (nodes relationships : Nat)
  | validationError (message : String)
  | storeError (message : String)
deriving Repr, DecidableEq

/-- Is the outcome the spec's `ValidationError` class? -/
def BuildOutcome.isValidation : BuildOutcome → Bool
  | .validationError _ => true
  | _ => false

/-- The `POST /build-graph` handler of `src/server.js`: destructure
`req.body || {}`, default `applications || []` and `usersById || {}`, then run
`MATCH (n) DETACH DELETE n` followed by the build query inside one
`writeTransaction` and read back the node and relationship counts.  On a query
error the transaction rolls back (the pre-call graph is kept) and the catch-all
responds with a 500 store error. -/
def rebuildGraph (g : Graph) (body : Option BuildBody) : Graph × BuildOutcome :=
  let apps := (body.bind BuildBody.applications).getD []
  let users := (body.bind BuildBody.usersById).getD []
  match runBuildQuery emptyGraph apps users with
  | some g2 => (g2, .ok g2.nodes.length g2.edges.length)
  | none => (g, .storeError "Cannot merge node using null property value")

/-- The relationships of `g` matching `(:Person {id:u})-[r:CANDIDATO_A]->(:Person {id:t})`. -/
def edgesFor (g : Graph) (u t : String) : List Edge :=
  g.edges.filter (fun e => e.src == u && e.tgt == t)

/-- The last application record for the ordered pair `(u, t)` in input order. -/
def lastRecordFor (apps : List AppRec) (u t : String) : Option AppRec :=
  (apps.filter (fun a => a.user_id == some u && a.target_user_id == some t)).getLast?

/-! ## Cycle finder (`POST /graph/chains`) -/

/-- All walks of exactly `k` relationships starting at the node with id
`cur`, following `CANDIDATO_A` edges; each occurrence in `g.edges` is a
distinct relationship. -/
def walksFrom (g : Graph) (cur : String) : Nat → List (List Edge)
  | 0 => [[]]
  | k + 1 =>
      (g.edges.filter (fun e => e.src == cur)).flatMap
        (fun e => (walksFrom g e.tgt k).map (e :: ·))

/-- Does the walk close back to `start`?  (The pattern
`(p:Person)-[rels:CANDIDATO_A*2..10]->(p)` requires the last relationship to
end at the start node.) -/
def isCycleAt (start : String) (es : List Edge) : Bool :=
  match es.getLast? with
  | some e => e.tgt == start
  | none => false

/-- The node ids visited by the walk, i.e. `nodes(path)[0..-1]` (the start
node followed by every intermediate node, the closing copy of the start
dropped). -/
def nodesOf (es : List Edge) : List String :=
  es.map Edge.src

/-- The Cypher uniqueness filter
`size(ns[0..-1]) = size(apoc.coll.toSet(ns[0..-1]))`. -/
def nodesDistinct (es : List Edge) : Bool :=
  (nodesOf es).dedup.length == (nodesOf es).length

/-- The hop bound hard-coded in the `*2..10` pattern. -/
def maxChainLength : Nat := 10

/-- All matches of `(p:Person)-[rels:CANDIDATO_A*2..10]->(p)` that pass the
node-uniqueness filter, as lists of relationships.  (A match with a repeated
relationship would repeat a source node, so the filter also subsumes Cypher's
relationship-uniqueness requirement.) -/
def enumCycles (g : Graph) : List (List Edge) :=
  (List.range' 2 (maxChainLength - 1)).flatMap (fun k =>
    g.nodes.flatMap (fun p =>
      (walksFrom g p.id k).filter (fun es => isCycleAt p.id es && nodesDistinct es)))

/-- `coalesce(p.full_name, p.id)` for the node with id `pid`. -/
def labelOf (g : Graph) (pid : String) : String :=
  match g.nodes.find? (fun p => p.id == pid) with
  | some p => p.full_name.getD p.id
  | none => pid

/-- Neo4j `round` (half away from zero on halves of positives, i.e.
`⌊x + 1/2⌋`) applied after scaling by 100: the cypher's
`round(x * 100) / 100`. -/
def round2 (q : ℚ) : ℚ :=
  ((q * 100 + 1/2).floor : ℚ) / 100

/-- The `CASE … END AS avgPriority` expression: `null` as soon as one
relationship has a `null` priority, otherwise the running-sum `reduce` divided
by `size(rels)`, rounded to two decimals. -/
def avgPriorityOf (es : List Edge) : Option ℚ :=
  if es.any (fun e => e.priority.isNone) then none
  else some (round2 ((es.foldl (fun total e => total + e.priority.getD 0) 0) / es.length))

/-- One element of the `chains` response array. -/
structure Chain where
  people : List String
  length : Nat
  avgPriority : Option ℚ
deriving Repr, DecidableEq

/-- The record the cypher returns for one matched cycle:
`[p IN persons | coalesce(p.full_name, p.id)]`, `size(persons)` and
`avgPriority`. -/
def recordOfCycle (g : Graph) (es : List Edge) : Chain :=
  { people := es.map (fun e => labelOf g e.src)
    length := es.length
    avgPriority := avgPriorityOf es }

/-- JavaScript code-unit comparison of two strings, as used by the default
`Array.prototype.sort()` comparator. -/
def strLeChars : List Char → List Char → Bool
  | [], _ => true
  | _ :: _, [] => false
  | a :: as, b :: bs =>
      if a.toNat < b.toNat then true
      else if b.toNat < a.toNat then false
      else strLeChars as bs

/-- `a <= b` in JavaScript string comparison. -/
def strLe (a b : String) : Bool :=
  strLeChars a.data b.data

/-- Insertion of a string into a sorted list, auxiliary to `sortStrings`. -/
def insertSorted (s : String) : List String → List String
  | [] => [s]
  | x :: xs => if strLe s x then s :: x :: xs else x :: insertSorted s xs

/-- `people.slice().sort()`: the labels in ascending code-unit order. -/
def sortStrings (l : List String) : List String :=
  l.foldr insertSorted []

/-- The canonical dedup key `people.slice().sort().join("|")`. -/
def keyOf (people : List String) : String :=
  String.intercalate "|" (sortStrings people)

/-- The `.map(...)` stage of the handler: each result record paired with its
canonical key. -/
def keyedChains (g : Graph) : List (String × Chain) :=
  (enumCycles g).map (fun es =>
    let c := recordOfCycle g es
    (keyOf c.people, c))

/-- The `.filter(...)` stage: drop a record whose key is already in the
`seen` set, otherwise keep it and add its key. -/
def filterSeen (seen : List String) : List (String × Chain) → List (String × Chain)
  | [] => []
  | c :: rest =>
      if seen.contains c.1 then filterSeen seen rest
      else c :: filterSeen (c.1 :: seen) rest

/-- The `POST /graph/chains` handler: run the cycle query, key each record,
drop duplicate keys keeping the first occurrence, strip the key. -/
def findChains (g : Graph) : List Chain :=
  (filterSeen [] (keyedChains g)).map Prod.snd

/-- Specification-side restatement of the dedup stage: keep the head, delete
every later element with the same key, recurse. -/
def keepFirstByKey : List (String × Chain) → List (String × Chain)
  | [] => []
  | c :: rest => c :: keepFirstByKey (rest.filter (fun d => d.1 != c.1))
termination_by l => l.length
decreasing_by
  exact Nat.lt_succ_of_le (List.length_filter_le _ _)

/-! ## Concrete instances used by witnesses and counterexamples -/

/-- The two-node mutual-candidacy graph `A→B (p=2)`, `B→A (p=4)` with one
named person. -/
def sampleGraph : Graph :=
  ⟨[⟨"A", some "Alice"⟩, ⟨"B", none⟩], [⟨"A", "B", some 2⟩, ⟨"B", "A", some 4⟩]⟩

/-- The single chain `/graph/chains` reports on `sampleGraph`. -/
def sampleChain : Chain := ⟨["Alice", "B"], 2, some 3⟩

/-- Two distinct persons that share the display name `Bob`, in a two-node
cycle. -/
def twinNameGraph : Graph :=
  ⟨[⟨"x", some "Bob"⟩, ⟨"y", some "Bob"⟩], [⟨"x", "y", some 1⟩, ⟨"y", "x", some 2⟩]⟩

/-! ## Lemmas about the build query -/

/-- `upsertPerson` only touches the node list. -/
lemma edges_upsertPerson (g : Graph) (pid : String) (users : List (String × String)) :
    (upsertPerson g pid users).edges = g.edges := by
  unfold upsertPerson
  split <;> rfl

lemma edgesFor_upsertPerson (g : Graph) (pid : String) (users : List (String × String))
    (x y : String) : edgesFor (upsertPerson g pid users) x y = edgesFor g x y := by
  simp [edgesFor, edges_upsertPerson]

/-- The rewriting step of `upsertEdge` preserves endpoints. -/
lemma upsertEdge_rewrite_endpoints (u t : String) (p : Option ℚ) (e : Edge) :
    ((if e.src == u && e.tgt == t then { e with priority := p } else e).src = e.src) ∧
    ((if e.src == u && e.tgt == t then { e with priority := p } else e).tgt = e.tgt) := by
  split <;> simp

/-- After `upsertEdge g u t p` the `(u, t)` relationships are exactly the one
just written, provided the graph had at most one such relationship. -/
lemma edgesFor_upsertEdge_self (g : Graph) (u t : String) (p : Option ℚ)
    (h : (edgesFor g u t).length ≤ 1) :
    edgesFor (upsertEdge g u t p) u t = [⟨u, t, p⟩] := by
  unfold edgesFor at h
  unfold upsertEdge edgesFor
  split
  case isTrue hex =>
    rw [List.filter_map]
    have hqf : ∀ e : Edge,
        ((fun e : Edge => e.src == u && e.tgt == t) ∘
          (fun e : Edge => if e.src == u && e.tgt == t then { e with priority := p } else e)) e
          = (e.src == u && e.tgt == t) := by
      intro e
      have h1 := upsertEdge_rewrite_endpoints u t p e
      simp only [Function.comp_apply, h1.1, h1.2]
    rw [List.filter_congr (fun e _ => hqf e)]
    obtain ⟨e, hmem, hqe⟩ := List.any_eq_true.mp hex
    have hne : g.edges.filter (fun e : Edge => e.src == u && e.tgt == t) ≠ [] := by
      intro hnil
      have hm : e ∈ g.edges.filter (fun e : Edge => e.src == u && e.tgt == t) :=
        List.mem_filter.mpr ⟨hmem, hqe⟩
      rw [hnil] at hm
      exact absurd hm (List.not_mem_nil e)
    have hlen1 : (g.edges.filter (fun e : Edge => e.src == u && e.tgt == t)).length = 1 := by
      have := List.length_pos.mpr hne
      omega
    obtain ⟨e', he'⟩ := List.length_eq_one.mp hlen1
    have he'mem : e' ∈ g.edges.filter (fun e : Edge => e.src == u && e.tgt == t) := by
      rw [he']; exact List.mem_singleton_self e'
    have hq' := (List.mem_filter.mp he'mem).2
    simp only [Bool.and_eq_true, beq_iff_eq] at hq'
    rw [he']
    have hcond : (e'.src == u && e'.tgt == t) = true := by
      simp [hq'.1, hq'.2]
    simp only [List.map_cons, List.map_nil, hcond, if_true]
    simp [hq'.1, hq'.2]
  case isFalse hex =>
    rw [List.filter_append]
    have hnil : g.edges.filter (fun e : Edge => e.src == u && e.tgt == t) = [] := by
      rw [List.filter_eq_nil_iff]
      intro e hmem hq
      exact hex (List.any_eq_true.mpr ⟨e, hmem, hq⟩)
    rw [hnil]
    simp

/-- `upsertEdge g u t p` leaves every other ordered pair untouched. -/
lemma edgesFor_upsertEdge_other (g : Graph) (u t : String) (p : Option ℚ)
    (x y : String) (hne : ¬(x = u ∧ y = t)) :
    edgesFor (upsertEdge g u t p) x y = edgesFor g x y := by
  unfold upsertEdge edgesFor
  split
  case isTrue hex =>
    rw [List.filter_map]
    have hqf : ∀ e : Edge,
        ((fun e : Edge => e.src == x && e.tgt == y) ∘
          (fun e : Edge => if e.src == u && e.tgt == t then { e with priority := p } else e)) e
          = (e.src == x && e.tgt == y) := by
      intro e
      have h1 := upsertEdge_rewrite_endpoints u t p e
      simp only [Function.comp_apply, h1.1, h1.2]
    rw [List.filter_congr (fun e _ => hqf e)]
    have hid : List.map
        (fun e : Edge => if e.src == u && e.tgt == t then { e with priority := p } else e)
        (g.edges.filter (fun e : Edge => e.src == x && e.tgt == y))
        = List.map id (g.edges.filter (fun e : Edge => e.src == x && e.tgt == y)) := by
      apply List.map_congr_left
      intro e hmem
      have hq := (List.mem_filter.mp hmem).2
      simp only [Bool.and_eq_true, beq_iff_eq] at hq
      have hnc : ¬((e.src == u && e.tgt == t) = true) := by
        simp only [Bool.and_eq_true, beq_iff_eq, hq.1, hq.2]
        intro hc
        exact hne ⟨hc.1, hc.2⟩
      simp [hnc]
    rw [hid, List.map_id]
  case isFalse hex =>
    rw [List.filter_append]
    have hnc : ¬((u == x && t == y) = true) := by
      simp only [Bool.and_eq_true, beq_iff_eq]
      intro hc
      exact hne ⟨hc.1.symm, hc.2.symm⟩
    simp [hnc]

/-- `upsertEdge` preserves the at-most-one-relationship-per-pair invariant. -/
lemma edgesFor_upsertEdge_len (g : Graph) (u t : String) (p : Option ℚ)
    (h : ∀ x y, (edgesFor g x y).length ≤ 1) :
    ∀ x y, (edgesFor (upsertEdge g u t p) x y).length ≤ 1 := by
  intro x y
  by_cases hx : x = u ∧ y = t
  · obtain ⟨rfl, rfl⟩ := hx
    rw [edgesFor_upsertEdge_self g x y p (h x y)]
    simp
  · rw [edgesFor_upsertEdge_other g u t p x y hx]
    exact h x y

/-- Shape of a successful per-record step of the build query. -/
lemma applyApp_eq_some {g : Graph} {a : AppRec} {users : List (String × String)} {g1 : Graph}
    (h : applyApp g a users = some g1) :
    ∃ u t, a.user_id = some u ∧ a.target_user_id = some t ∧
      g1 = upsertEdge (upsertPerson (upsertPerson g u users) t users) u t a.priority := by
  cases hu : a.user_id with
  | none => simp [applyApp, hu] at h
  | some u =>
    cases ht : a.target_user_id with
    | none => simp [applyApp, hu, ht] at h
    | some t =>
      simp only [applyApp, hu, ht, Option.some.injEq] at h
      exact ⟨u, t, rfl, rfl, h.symm⟩

/-- `lastRecordFor` on a cons: the tail wins if it contains the pair. -/
lemma lastRecordFor_cons (a : AppRec) (rest : List AppRec) (u t : String) :
    lastRecordFor (a :: rest) u t =
      match lastRecordFor rest u t with
      | some b => some b
      | none =>
          if a.user_id == some u && a.target_user_id == some t then some a else none := by
  unfold lastRecordFor
  rw [List.filter_cons]
  by_cases hpa : (a.user_id == some u && a.target_user_id == some t) = true
  · rw [if_pos hpa, List.getLast?_cons]
    cases hfl : (rest.filter
        (fun a : AppRec => a.user_id == some u && a.target_user_id == some t)).getLast? with
    | none => simp [hpa]
    | some b => simp
  · rw [if_neg hpa]
    cases hfl : (rest.filter
        (fun a : AppRec => a.user_id == some u && a.target_user_id == some t)).getLast? with
    | none => simp [hpa]
    | some b => rfl

/-- Running the whole build statement: for each ordered pair the surviving
relationship is the one written by the last matching record, and pairs not
mentioned keep their pre-statement relationships. -/
lemma edgesFor_runBuildQuery :
    ∀ (apps : List AppRec) (users : List (String × String)) (g g' : Graph),
      runBuildQuery g apps users = some g' →
      (∀ x y, (edgesFor g x y).length ≤ 1) →
      ∀ u t, edgesFor g' u t =
        match lastRecordFor apps u t with
        | some a => [⟨u, t, a.priority⟩]
        | none => edgesFor g u t := by
  intro apps
  induction apps with
  | nil =>
    intro users g g' h hlen u t
    simp only [runBuildQuery, Option.some.injEq] at h
    subst h
    simp [lastRecordFor]
  | cons a rest ih =>
    intro users g g' h hlen u t
    unfold runBuildQuery at h
    cases happ : applyApp g a users with
    | none => rw [happ] at h; exact absurd h (by simp)
    | some g1 =>
      rw [happ] at h
      obtain ⟨u0, t0, hu, ht, hg1⟩ := applyApp_eq_some happ
      have hlen1 : ∀ x y, (edgesFor g1 x y).length ≤ 1 := by
        subst hg1
        apply edgesFor_upsertEdge_len
        intro x y
        rw [edgesFor_upsertPerson, edgesFor_upsertPerson]
        exact hlen x y
      have hrec := ih users g1 g' h hlen1 u t
      rw [hrec, lastRecordFor_cons]
      cases hl : lastRecordFor rest u t with
      | some b => rfl
      | none =>
        subst hg1
        by_cases hpa : (a.user_id == some u && a.target_user_id == some t) = true
        · rw [hu, ht] at hpa
          simp only [Bool.and_eq_true, beq_iff_eq, Option.some.injEq] at hpa
          rw [if_pos]
          · rw [hpa.1, hpa.2]
            rw [edgesFor_upsertEdge_self]
            rw [edgesFor_upsertPerson, edgesFor_upsertPerson]
            exact hlen u t
          · rw [hu, ht]
            simp [hpa.1, hpa.2]
        · rw [if_neg hpa]
          rw [hu, ht] at hpa
          simp only [Bool.and_eq_true, beq_iff_eq, Option.some.injEq, not_and_or] at hpa
          rw [edgesFor_upsertEdge_other]
          · rw [edgesFor_upsertPerson, edgesFor_upsertPerson]
          · intro hc
            rcases hpa with hpa | hpa
            · exact hpa hc.1.symm
            · exact hpa hc.2.symm

/-- A record lacking either id makes the whole build statement fail at the
store. -/
lemma runBuildQuery_eq_none_of_bad :
    ∀ (apps : List AppRec) (users : List (String × String)) (g : Graph),
      (∃ a ∈ apps, a.user_id = none ∨ a.target_user_id = none) →
      runBuildQuery g apps users = none := by
  intro apps
  induction apps with
  | nil =>
    intro users g hbad
    obtain ⟨a, hmem, _⟩ := hbad
    exact absurd hmem (List.not_mem_nil a)
  | cons a rest ih =>
    intro users g hbad
    obtain ⟨b, hmem, hb⟩ := hbad
    rcases List.mem_cons.mp hmem with rfl | hmem'
    · have happ : applyApp g b users = none := by
        unfold applyApp
        rcases hb with hb | hb <;>
          rw [hb] <;> cases hvu : b.user_id <;> cases hvt : b.target_user_id <;> simp_all
      unfold runBuildQuery
      rw [happ]
    · unfold runBuildQuery
      cases happ : applyApp g a users with
      | none => rfl
      | some g1 => exact ih users g1 ⟨b, hmem', hb⟩

/-! ## Lemmas about the cycle finder -/

/-- A walk of `k` relationships really has `k` relationships. -/
lemma length_of_mem_walksFrom (g : Graph) :
    ∀ (k : Nat) (u : String) (es : List Edge), es ∈ walksFrom g u k → es.length = k := by
  intro k
  induction k with
  | zero =>
    intro u es h
    simp only [walksFrom, List.mem_singleton] at h
    simp [h]
  | succ k ih =>
    intro u es h
    simp only [walksFrom, List.mem_flatMap, List.mem_map] at h
    obtain ⟨e, _, tl, htl, rfl⟩ := h
    simp [ih e.tgt tl htl]

/-- A nonempty walk from `u` starts with a relationship whose source is `u`. -/
lemma head_src_of_mem_walksFrom (g : Graph) (k : Nat) (u : String) (es : List Edge)
    (h : es ∈ walksFrom g u (k + 1)) :
    ∃ e tl, es = e :: tl ∧ e.src = u := by
  simp only [walksFrom, List.mem_flatMap, List.mem_map] at h
  obtain ⟨e, he, tl, _, rfl⟩ := h
  have := (List.mem_filter.mp he).2
  exact ⟨e, tl, rfl, by simpa using this⟩

/-- The Cypher set-size test is exactly node distinctness. -/
lemma nodesDistinct_iff_nodup (es : List Edge) :
    nodesDistinct es = true ↔ (nodesOf es).Nodup := by
  unfold nodesDistinct
  constructor
  · intro h
    have hlen : (nodesOf es).dedup.length = (nodesOf es).length := by
      simpa using h
    have heq : (nodesOf es).dedup = nodesOf es :=
      (List.dedup_sublist (nodesOf es)).eq_of_length hlen
    rw [← heq]
    exact List.nodup_dedup (nodesOf es)
  · intro h
    simp [List.dedup_eq_self.mpr h]

/-- What membership in `enumCycles` guarantees: bounded length, node
distinctness, and closure of the walk back to its first source. -/
lemma mem_enumCycles_spec {g : Graph} {es : List Edge} (h : es ∈ enumCycles g) :
    2 ≤ es.length ∧ es.length ≤ maxChainLength ∧ (nodesOf es).Nodup ∧
      ∃ e0 tl, es = e0 :: tl ∧ (es.getLast?).map Edge.tgt = some e0.src := by
  unfold enumCycles maxChainLength at h
  simp only [List.mem_flatMap, List.mem_filter, List.mem_range'] at h
  obtain ⟨k, ⟨i, hi, hk⟩, p, _, hwalk, hcyc⟩ := h
  have hand := hcyc
  rw [Bool.and_eq_true] at hand
  have hlen := length_of_mem_walksFrom g k p.id es hwalk
  have h2 : 2 ≤ es.length := by rw [hlen]; omega
  have h10 : es.length ≤ maxChainLength := by
    unfold maxChainLength; rw [hlen]; omega
  have hnodup := (nodesDistinct_iff_nodup es).mp hand.2
  obtain ⟨k', rfl⟩ : ∃ k', k = k' + 1 := ⟨k - 1, by omega⟩
  obtain ⟨e0, tl, rfl, hsrc⟩ := head_src_of_mem_walksFrom g k' p.id es hwalk
  refine ⟨h2, h10, hnodup, e0, tl, rfl, ?_⟩
  have hcl := hand.1
  unfold isCycleAt at hcl
  cases hlast : (e0 :: tl).getLast? with
  | none => simp [hlast] at hcl
  | some e =>
    rw [hlast] at hcl
    simp only [beq_iff_eq] at hcl
    simp [hlast, hcl, hsrc]

/-- The seen-set filter only keeps elements of its input. -/
lemma mem_of_mem_filterSeen :
    ∀ (l : List (String × Chain)) (seen : List String) (x : String × Chain),
      x ∈ filterSeen seen l → x ∈ l := by
  intro l
  induction l with
  | nil => intro seen x h; simp [filterSeen] at h
  | cons c rest ih =>
    intro seen x h
    unfold filterSeen at h
    split at h
    · exact List.mem_cons_of_mem c (ih seen x h)
    · rcases List.mem_cons.mp h with rfl | h'
      · exact List.mem_cons_self x rest
      · exact List.mem_cons_of_mem c (ih (c.1 :: seen) x h')

/-- Every reported chain is the record of some enumerated cycle. -/
lemma findChains_sound {g : Graph} {c : Chain} (h : c ∈ findChains g) :
    ∃ es ∈ enumCycles g, c = recordOfCycle g es := by
  unfold findChains at h
  obtain ⟨pr, hpr, hsnd⟩ := List.mem_map.mp h
  have hkeyed := mem_of_mem_filterSeen _ _ _ hpr
  unfold keyedChains at hkeyed
  obtain ⟨es, hes, hmk⟩ := List.mem_map.mp hkeyed
  refine ⟨es, hes, ?_⟩
  rw [← hsnd, ← hmk]

/-- Elements of `keepFirstByKey l` come from `l` (length-bounded form). -/
lemma keepFirstByKey_subset_aux :
    ∀ (n : Nat) (l : List (String × Chain)), l.length ≤ n →
      ∀ x, x ∈ keepFirstByKey l → x ∈ l := by
  intro n
  induction n with
  | zero =>
    intro l hl x hx
    rw [List.length_eq_zero.mp (Nat.le_zero.mp hl)] at hx ⊢
    simpa [keepFirstByKey] using hx
  | succ n ih =>
    intro l hl x hx
    cases l with
    | nil => simpa [keepFirstByKey] using hx
    | cons c rest =>
      unfold keepFirstByKey at hx
      rcases List.mem_cons.mp hx with rfl | hx'
      · exact List.mem_cons_self x rest
      · have hlen : (rest.filter (fun d => d.1 != c.1)).length ≤ n := by
          have := List.length_filter_le (fun d : String × Chain => d.1 != c.1) rest
          simp only [List.length_cons] at hl
          omega
        have := ih _ hlen x hx'
        exact List.mem_cons_of_mem c (List.mem_of_mem_filter this)

/-- Elements of `keepFirstByKey l` come from `l`. -/
lemma keepFirstByKey_subset {l : List (String × Chain)} {x : String × Chain}
    (hx : x ∈ keepFirstByKey l) : x ∈ l :=
  keepFirstByKey_subset_aux l.length l (Nat.le_refl _) x hx

/-- The keys surviving `keepFirstByKey` are pairwise distinct
(length-bounded form). -/
lemma keys_keepFirstByKey_nodup_aux :
    ∀ (n : Nat) (l : List (String × Chain)), l.length ≤ n →
      ((keepFirstByKey l).map Prod.fst).Nodup := by
  intro n
  induction n with
  | zero =>
    intro l hl
    rw [List.length_eq_zero.mp (Nat.le_zero.mp hl)]
    simp [keepFirstByKey]
  | succ n ih =>
    intro l hl
    cases l with
    | nil => simp [keepFirstByKey]
    | cons c rest =>
      unfold keepFirstByKey
      rw [List.map_cons, List.nodup_cons]
      have hlen : (rest.filter (fun d => d.1 != c.1)).length ≤ n := by
        have := List.length_filter_le (fun d : String × Chain => d.1 != c.1) rest
        simp only [List.length_cons] at hl
        omega
      refine ⟨?_, ih _ hlen⟩
      intro hc
      obtain ⟨y, hy, hkey⟩ := List.mem_map.mp hc
      have hyf := keepFirstByKey_subset hy
      have := (List.mem_filter.mp hyf).2
      rw [hkey] at this
      simp at this

/-- The seen-set filter computes `keepFirstByKey` on the records whose key is
not yet seen. -/
lemma filterSeen_eq_keepFirstByKey :
    ∀ (l : List (String × Chain)) (seen : List String),
      filterSeen seen l = keepFirstByKey (l.filter (fun c => !(seen.contains c.1))) := by
  intro l
  induction l with
  | nil => intro seen; simp [filterSeen, keepFirstByKey]
  | cons c rest ih =>
    intro seen
    unfold filterSeen
    rw [List.filter_cons]
    by_cases hc : seen.contains c.1 = true
    · rw [if_pos hc]
      have hcf : (!seen.contains c.1) = false := by rw [hc]; rfl
      rw [hcf]
      simp only [Bool.false_eq_true, if_false]
      exact ih seen
    · rw [if_neg hc]
      have hcf : seen.contains c.1 = false := by
        cases h : seen.contains c.1
        · rfl
        · exact absurd h hc
      have hcb : (!seen.contains c.1) = true := by rw [hcf]; rfl
      rw [hcb]
      simp only [if_true]
      unfold keepFirstByKey
      rw [List.filter_filter]
      have hcong : ∀ d : String × Chain,
          ((d.1 != c.1) && (!seen.contains d.1)) = (!(c.1 :: seen).contains d.1) := by
        intro d
        by_cases h1 : d.1 = c.1 <;> by_cases h2 : seen.contains d.1 = true <;>
          simp [h1, h2]
      rw [List.filter_congr (fun d _ => hcong d)]
      rw [ih (c.1 :: seen)]

/-- At the top level (empty seen set) the handler's dedup filter is exactly
`keepFirstByKey`. -/
lemma filterSeen_nil_eq_keepFirstByKey (l : List (String × Chain)) :
    filterSeen [] l = keepFirstByKey l := by
  rw [filterSeen_eq_keepFirstByKey]
  congr 1
  apply List.filter_eq_self.mpr
  intro a _
  simp [List.contains]

/-- The surviving keys are pairwise distinct. -/
lemma keys_keepFirstByKey_nodup (l : List (String × Chain)) :
    ((keepFirstByKey l).map Prod.fst).Nodup :=
  keys_keepFirstByKey_nodup_aux l.length l (Nat.le_refl _)

/-- Core `Rat.floor` coincides with the `⌊·⌋` of the floor-ring structure. -/
lemma rat_floor_eq_intFloor (q : ℚ) : q.floor = ⌊q⌋ := rfl

/-- `coalesce` with a null fallback is the identity. -/
lemma coalesce_none_right (a : Option α) : coalesce a none = a := by
  cases a <;> rfl

/-- A successful handler run means the build query succeeded and produced the
result graph. -/
lemma rebuildGraph_ok_inv {g g' : Graph} {body : Option BuildBody} {n m : Nat}
    (h : rebuildGraph g body = (g', .ok n m)) :
    runBuildQuery emptyGraph ((body.bind BuildBody.applications).getD [])
      ((body.bind BuildBody.usersById).getD []) = some g' := by
  simp only [rebuildGraph] at h
  cases hr : runBuildQuery emptyGraph ((body.bind BuildBody.applications).getD [])
      ((body.bind BuildBody.usersById).getD []) with
  | some g2 =>
    rw [hr] at h
    simp only [Prod.mk.injEq] at h
    rw [h.1]
  | none =>
    rw [hr] at h
    simp only [Prod.mk.injEq] at h
    exact absurd h.2 (by simp)

/-- Summing the unwrapped priorities of a walk whose priorities are all
non-null. -/
lemma foldl_priority_sum :
    ∀ (es : List Edge) (ps : List ℚ) (acc : ℚ),
      es.map Edge.priority = ps.map some →
      es.foldl (fun total e => total + e.priority.getD 0) acc = acc + ps.sum := by
  intro es
  induction es with
  | nil =>
    intro ps acc h
    cases ps with
    | nil => simp
    | cons q ps' => simp at h
  | cons e es' ih =>
    intro ps acc h
    cases ps with
    | nil => simp at h
    | cons q ps' =>
      simp only [List.map_cons, List.cons.injEq] at h
      rw [List.foldl_cons, h.1]
      rw [ih ps' (acc + (some q).getD 0) h.2]
      simp only [Option.getD_some, List.sum_cons]
      ring

/-- Evaluation of the sample: the cycle finder reports exactly one chain on
`sampleGraph`. -/
lemma findChains_sampleGraph : findChains sampleGraph = [sampleChain] := by
  have h1 : findChains sampleGraph =
      [⟨["Alice", "B"], 2, avgPriorityOf [⟨"A", "B", some 2⟩, ⟨"B", "A", some 4⟩]⟩] := rfl
  have h2 : avgPriorityOf [Edge.mk "A" "B" (some 2), Edge.mk "B" "A" (some 4)] = some 3 := by
    norm_num [avgPriorityOf, round2, rat_floor_eq_intFloor]
  rw [h1, h2]
  rfl

lemma sampleChain_mem : sampleChain ∈ findChains sampleGraph := by
  rw [findChains_sampleGraph]
  exact List.mem_cons_self _ _

/-! ## The claims -/

/-- **C1 (counterexample)** — the claim says a `rebuildGraph` call containing a
record without `user_id` is rejected with a `ValidationError`; on the code the
very call `{applications: [{target_user_id: "B", priority: 1}]}` instead fails
with the catch-all 500 store error (the null id aborts the merge inside the
store), and the outcome is not a validation rejection. -/
theorem missing_id_not_validation_error :
    (rebuildGraph emptyGraph (some ⟨some [⟨none, some "B", some 1⟩], none⟩)).2 =
      BuildOutcome.storeError "Cannot merge node using null property value" ∧
    ((rebuildGraph emptyGraph (some ⟨some [⟨none, some "B", some 1⟩], none⟩)).2).isValidation
      = false :=
  ⟨rfl, rfl⟩

/-- **C1 (amended)** — a record lacking `user_id` or `target_user_id` still
fails the whole call (the transaction rolls back, so the pre-call graph is kept
and no partial effect is visible), but the failure is the handler's 500 store
error, not an eager `ValidationError`. -/
theorem missing_id_fails_whole_call (g g' : Graph) (apps : List AppRec)
    (users : Option (List (String × String))) (o : BuildOutcome)
    (hbad : ∃ a ∈ apps, a.user_id = none ∨ a.target_user_id = none)
    (h : rebuildGraph g (some ⟨some apps, users⟩) = (g', o)) :
    g' = g ∧ o = BuildOutcome.storeError "Cannot merge node using null property value" := by
  have hnone : runBuildQuery emptyGraph apps (users.getD []) = none :=
    runBuildQuery_eq_none_of_bad apps (users.getD []) emptyGraph hbad
  have h' : (match runBuildQuery emptyGraph apps (users.getD []) with
      | some g2 => (g2, BuildOutcome.ok g2.nodes.length g2.edges.length)
      | none => (g, BuildOutcome.storeError "Cannot merge node using null property value"))
      = (g', o) := h
  rw [hnone] at h'
  exact ⟨(Prod.mk.injEq _ _ _ _ ▸ h').1.symm, (Prod.mk.injEq _ _ _ _ ▸ h').2.symm⟩

/-- **C1 (amended, witness)** — instantiated at the one-record input whose
`user_id` is absent. -/
theorem missing_id_fails_whole_call_witness :
    emptyGraph = emptyGraph ∧
      BuildOutcome.storeError "Cannot merge node using null property value" =
        BuildOutcome.storeError "Cannot merge node using null property value" :=
  missing_id_fails_whole_call emptyGraph emptyGraph [⟨none, some "B", some 1⟩] none
    (BuildOutcome.storeError "Cannot merge node using null property value")
    ⟨⟨none, some "B", some 1⟩, List.mem_cons_self _ _, Or.inl rfl⟩ rfl

/-- **C2** — when the input of a successful `rebuildGraph` call contains two or
more records for the same ordered `(user_id, target_user_id)` pair, the result
graph has exactly one `CANDIDATO_A` relationship for that pair and its priority
is the priority of the last such record in input order (null included). -/
theorem duplicate_pair_last_write_wins (g g' : Graph) (apps : List AppRec)
    (users : Option (List (String × String))) (n m : Nat) (u t : String)
    (hok : rebuildGraph g (some ⟨some apps, users⟩) = (g', .ok n m))
    (hdup : 2 ≤ (apps.filter
      (fun a => a.user_id == some u && a.target_user_id == some t)).length) :
    ∃ a : AppRec, lastRecordFor apps u t = some a ∧
      edgesFor g' u t = [⟨u, t, a.priority⟩] := by
  have hrun : runBuildQuery emptyGraph apps (users.getD []) = some g' :=
    rebuildGraph_ok_inv hok
  have hmain := edgesFor_runBuildQuery apps (users.getD []) emptyGraph g' hrun
    (by intro x y; simp [edgesFor, emptyGraph]) u t
  cases hl : lastRecordFor apps u t with
  | none =>
    exfalso
    unfold lastRecordFor at hl
    rw [List.getLast?_eq_none_iff] at hl
    rw [hl] at hdup
    simp at hdup
  | some a =>
    rw [hl] at hmain
    exact ⟨a, rfl, hmain⟩

/-- **C2 (witness)** — two records for the pair `(A, B)` with priorities 1 then
5 leave one `A→B` relationship of priority 5. -/
theorem duplicate_pair_last_write_wins_witness :
    ∃ a : AppRec,
      lastRecordFor [⟨some "A", some "B", some 1⟩, ⟨some "A", some "B", some 5⟩] "A" "B"
        = some a ∧
      edgesFor ⟨[⟨"A", none⟩, ⟨"B", none⟩], [⟨"A", "B", some 5⟩]⟩ "A" "B"
        = [⟨"A", "B", a.priority⟩] :=
  duplicate_pair_last_write_wins emptyGraph ⟨[⟨"A", none⟩, ⟨"B", none⟩], [⟨"A", "B", some 5⟩]⟩
    [⟨some "A", some "B", some 1⟩, ⟨some "A", some "B", some 5⟩] none 2 1 "A" "B"
    rfl (by decide)

/-- **C3** — every chain that `/graph/chains` returns comes from an enumerated
cycle of between 2 and `maxChainLength = 10` relationships whose visited nodes
are pairwise distinct; in particular no longer chain is ever returned. -/
theorem chains_bounded_simple_cycles (g : Graph) (c : Chain) (hc : c ∈ findChains g) :
    2 ≤ c.length ∧ c.length ≤ maxChainLength ∧
    ∃ es ∈ enumCycles g, c = recordOfCycle g es ∧ c.length = es.length ∧
      (nodesOf es).Nodup := by
  obtain ⟨es, hes, rfl⟩ := findChains_sound hc
  obtain ⟨h2, h10, hnodup, _⟩ := mem_enumCycles_spec hes
  exact ⟨h2, h10, es, hes, rfl, rfl, hnodup⟩

/-- **C3 (witness)** — instantiated on the two-node sample cycle. -/
theorem chains_bounded_simple_cycles_witness :
    2 ≤ sampleChain.length ∧ sampleChain.length ≤ maxChainLength ∧
    ∃ es ∈ enumCycles sampleGraph, sampleChain = recordOfCycle sampleGraph es ∧
      sampleChain.length = es.length ∧ (nodesOf es).Nodup :=
  chains_bounded_simple_cycles sampleGraph sampleChain sampleChain_mem

/-- **C4** — for every returned chain: if some participating relationship has a
null priority the chain's `avgPriority` is null; if the priorities are exactly
the non-null list `ps`, the chain's `avgPriority` is the arithmetic mean of
`ps` rounded to two decimals. -/
theorem chains_avg_priority (g : Graph) (c : Chain) (hc : c ∈ findChains g) :
    ∃ es ∈ enumCycles g, c = recordOfCycle g es ∧
      ((∃ e ∈ es, e.priority = none) → c.avgPriority = none) ∧
      (∀ ps : List ℚ, es.map Edge.priority = ps.map some →
        c.avgPriority = some (round2 (ps.sum / ps.length))) := by
  obtain ⟨es, hes, rfl⟩ := findChains_sound hc
  refine ⟨es, hes, rfl, ?_, ?_⟩
  · intro ⟨e, hmem, hnone⟩
    show avgPriorityOf es = none
    unfold avgPriorityOf
    rw [if_pos]
    exact List.any_eq_true.mpr ⟨e, hmem, by rw [hnone]; rfl⟩
  · intro ps hps
    show avgPriorityOf es = some (round2 (ps.sum / ps.length))
    unfold avgPriorityOf
    rw [if_neg, foldl_priority_sum es ps 0 hps]
    · have hlen : es.length = ps.length := by
        have := congrArg List.length hps
        simpa using this
      rw [zero_add, hlen]
    · intro hany
      obtain ⟨e, hmem, hisnone⟩ := List.any_eq_true.mp hany
      have : e.priority ∈ es.map Edge.priority := List.mem_map_of_mem Edge.priority hmem
      rw [hps] at this
      obtain ⟨q, _, hq⟩ := List.mem_map.mp this
      rw [← hq] at hisnone
      simp at hisnone

/-- **C4 (witness)** — instantiated on the sample cycle with priorities 2 and
4 (mean 3). -/
theorem chains_avg_priority_witness :
    ∃ es ∈ enumCycles sampleGraph, sampleChain = recordOfCycle sampleGraph es ∧
      ((∃ e ∈ es, e.priority = none) → sampleChain.avgPriority = none) ∧
      (∀ ps : List ℚ, es.map Edge.priority = ps.map some →
        sampleChain.avgPriority = some (round2 (ps.sum / ps.length))) :=
  chains_avg_priority sampleGraph sampleChain sampleChain_mem

/-- **C5** — no two chains of a `/graph/chains` response share a canonical key
(the sorted, `|`-joined label list), and the response is exactly the
first-occurrence-per-key subsequence of the enumerated records. -/
theorem chains_dedup_by_canonical_key (g : Graph) :
    ((findChains g).map (fun c => keyOf c.people)).Nodup ∧
    findChains g = (keepFirstByKey (keyedChains g)).map Prod.snd := by
  have heq : findChains g = (keepFirstByKey (keyedChains g)).map Prod.snd := by
    unfold findChains
    rw [filterSeen_nil_eq_keepFirstByKey]
  refine ⟨?_, heq⟩
  rw [heq]
  have hmm : ∀ pr ∈ keepFirstByKey (keyedChains g),
      (fun c : Chain => keyOf c.people) pr.2 = pr.1 := by
    intro pr hpr
    have hk := keepFirstByKey_subset hpr
    unfold keyedChains at hk
    obtain ⟨es, _, hmk⟩ := List.mem_map.mp hk
    subst hmk
    rfl
  rw [List.map_map]
  have h2 : List.map ((fun c : Chain => keyOf c.people) ∘ Prod.snd)
      (keepFirstByKey (keyedChains g))
      = List.map Prod.fst (keepFirstByKey (keyedChains g)) :=
    List.map_congr_left hmm
  rw [h2]
  exact keys_keepFirstByKey_nodup (keyedChains g)

/-- **C6** — each `rebuildGraph` call is all-or-nothing: on success the visible
graph is the full reset-plus-repopulation determined by the input alone, and on
failure the pre-call graph is kept unchanged (the transaction rolled back); no
intermediate state is an outcome. -/
theorem rebuild_atomic_all_or_nothing (g : Graph) (body : Option BuildBody)
    (g' : Graph) (o : BuildOutcome) (h : rebuildGraph g body = (g', o)) :
    (∃ n m, o = .ok n m ∧
      runBuildQuery emptyGraph ((body.bind BuildBody.applications).getD [])
        ((body.bind BuildBody.usersById).getD []) = some g') ∨
    (∃ msg, o = .storeError msg ∧ g' = g) := by
  simp only [rebuildGraph] at h
  cases hr : runBuildQuery emptyGraph ((body.bind BuildBody.applications).getD [])
      ((body.bind BuildBody.usersById).getD []) with
  | some g2 =>
    rw [hr] at h
    simp only [Prod.mk.injEq] at h
    left
    exact ⟨g2.nodes.length, g2.edges.length, h.2.symm, by rw [h.1]⟩
  | none =>
    rw [hr] at h
    simp only [Prod.mk.injEq] at h
    right
    exact ⟨"Cannot merge node using null property value", h.2.symm, h.1.symm⟩

/-- **C6 (witness)** — instantiated at a call that resets a nonempty graph with
no applications. -/
theorem rebuild_atomic_all_or_nothing_witness :
    (∃ n m, BuildOutcome.ok 0 0 = BuildOutcome.ok n m ∧
      runBuildQuery emptyGraph
        ((((none : Option BuildBody)).bind BuildBody.applications).getD [])
        ((((none : Option BuildBody)).bind BuildBody.usersById).getD []) = some emptyGraph) ∨
    (∃ msg, BuildOutcome.ok 0 0 = BuildOutcome.storeError msg ∧ emptyGraph = sampleGraph) :=
  rebuild_atomic_all_or_nothing sampleGraph none emptyGraph (BuildOutcome.ok 0 0) rfl

/-- **C7 (counterexample)** — the claim says a returned chain's `people`
sequence never repeats an entry; on the graph with two distinct persons `x`
and `y` that share the display name `Bob` (cycle `x→y→x`), the single returned
chain's `people` is `["Bob", "Bob"]`, which has a repeated entry. -/
theorem chain_people_repeat_counterexample :
    (findChains twinNameGraph).map Chain.people = [["Bob", "Bob"]] ∧
    ¬ (["Bob", "Bob"] : List String).Nodup :=
  ⟨rfl, by decide⟩

/-- **C7 (amended)** — a returned chain's underlying person nodes are pairwise
distinct and the cycle implicitly closes back to the first person; each entry
of `people` is the person's display label (`full_name` if present, else `id`),
but labels of distinct persons may coincide. -/
theorem chains_people_labels_of_distinct_persons (g : Graph) (c : Chain)
    (hc : c ∈ findChains g) :
    ∃ es ∈ enumCycles g, (nodesOf es).Nodup ∧
      c.people = (nodesOf es).map (labelOf g) ∧
      (es.getLast?).map Edge.tgt = (es.head?).map Edge.src := by
  obtain ⟨es, hes, rfl⟩ := findChains_sound hc
  obtain ⟨_, _, hnodup, e0, tl, heq, hclose⟩ := mem_enumCycles_spec hes
  refine ⟨es, hes, hnodup, ?_, ?_⟩
  · show es.map (fun e => labelOf g e.src) = (es.map Edge.src).map (labelOf g)
    rw [List.map_map]
    rfl
  · rw [hclose, heq]
    rfl

/-- **C7 (amended, witness)** — instantiated on the two-node sample cycle. -/
theorem chains_people_labels_of_distinct_persons_witness :
    ∃ es ∈ enumCycles sampleGraph, (nodesOf es).Nodup ∧
      sampleChain.people = (nodesOf es).map (labelOf sampleGraph) ∧
      (es.getLast?).map Edge.tgt = (es.head?).map Edge.src :=
  chains_people_labels_of_distinct_persons sampleGraph sampleChain sampleChain_mem

/-- **C8** — the name upsert of the build query: a person id not yet in the
graph is created with the `usersById` lookup as its name (null when absent); an
id already present keeps its name unless the lookup supplies one; and the
concrete call `[(A→B, p=1)]` with `usersById = {A: "Alice"}` yields Person `A`
named `Alice` and Person `B` unnamed. -/
theorem name_fill_semantics :
    (∀ (g : Graph) (pid : String) (users : List (String × String)),
        (∀ q ∈ g.nodes, q.id ≠ pid) →
        (upsertPerson g pid users).nodes = g.nodes ++ [⟨pid, lookupName users pid⟩]) ∧
    (∀ (g : Graph) (pid : String) (users : List (String × String)),
        (∃ q ∈ g.nodes, q.id = pid) →
        (upsertPerson g pid users).nodes = g.nodes.map (fun q =>
          if q.id = pid then
            ⟨q.id, match lookupName users pid with
                   | some nm => some nm
                   | none => q.full_name⟩
          else q)) ∧
    (rebuildGraph emptyGraph
        (some ⟨some [⟨some "A", some "B", some 1⟩], some [("A", "Alice")]⟩)).1.nodes =
      [⟨"A", some "Alice"⟩, ⟨"B", none⟩] := by
  refine ⟨?_, ?_, rfl⟩
  · intro g pid users hnew
    unfold upsertPerson
    rw [if_neg, coalesce_none_right]
    intro hany
    obtain ⟨q, hq, hbeq⟩ := List.any_eq_true.mp hany
    exact hnew q hq (by simpa using hbeq)
  · intro g pid users hold
    unfold upsertPerson
    rw [if_pos]
    · have hfun : ∀ q ∈ g.nodes,
          (if q.id == pid then
            { q with full_name := coalesce (lookupName users pid) q.full_name }
          else q)
          = (if q.id = pid then
              Person.mk q.id (match lookupName users pid with
                              | some nm => some nm
                              | none => q.full_name)
            else q) := by
        intro q _
        by_cases hid : q.id = pid
        · have hbeq : (q.id == pid) = true := by simpa using hid
          rw [if_pos hbeq, if_pos hid]
          unfold coalesce
          cases hlk : lookupName users pid <;> rfl
        · have hbeq : ¬((q.id == pid) = true) := by simpa using hid
          rw [if_neg hbeq, if_neg hid]
      exact List.map_congr_left hfun
    · obtain ⟨q, hq, hid⟩ := hold
      exact List.any_eq_true.mpr ⟨q, hq, by simpa using hid⟩

/-- **C8 (witness)** — first sight creates `A` with the looked-up name; second
sight of `A` refreshes the stored name through the lookup. -/
theorem name_fill_semantics_witness :
    (upsertPerson emptyGraph "A" [("A", "Alice")]).nodes =
      emptyGraph.nodes ++ [⟨"A", lookupName [("A", "Alice")] "A"⟩] ∧
    (upsertPerson ⟨[⟨"A", some "Old"⟩], []⟩ "A" [("A", "Alice")]).nodes =
      [Person.mk "A" (some "Old")].map (fun q =>
        if q.id = "A" then
          ⟨q.id, match lookupName [("A", "Alice")] "A" with
                 | some nm => some nm
                 | none => q.full_name⟩
        else q) :=
  ⟨name_fill_semantics.1 emptyGraph "A" [("A", "Alice")] (by intro q hq; simp [emptyGraph] at hq),
   name_fill_semantics.2.1 ⟨[⟨"A", some "Old"⟩], []⟩ "A" [("A", "Alice")]
     ⟨⟨"A", some "Old"⟩, List.mem_cons_self _ _, rfl⟩⟩

/-- **C9** — `rebuildGraph` is idempotent: repeating a call with the same body
returns the same outcome (same counts) and leaves the graph in the same state
as the first call. -/
theorem rebuild_idempotent (g : Graph) (body : Option BuildBody) :
    rebuildGraph (rebuildGraph g body).1 body = rebuildGraph g body := by
  simp only [rebuildGraph]
  cases hr : runBuildQuery emptyGraph ((body.bind BuildBody.applications).getD [])
      ((body.bind BuildBody.usersById).getD []) <;> simp [hr]

/-- **C10** — an absent body, and likewise an absent or null `applications`
field, defaults to the empty list: the call succeeds, the graph is still
unconditionally reset, and the response counts are `{nodes: 0,
relationships: 0}`. -/
theorem absent_applications_default_empty (g : Graph)
    (users : Option (List (String × String))) :
    rebuildGraph g none = (emptyGraph, .ok 0 0) ∧
    rebuildGraph g (some ⟨none, users⟩) = (emptyGraph, .ok 0 0) :=
  ⟨rfl, rfl⟩

end GraphService
